import Mathlib

/-!
Verification of `branch_vacuum.py` (GitRon/git-buddy): a shallow embedding of
the branch-cleanup CLI.  Pure string processing is translated directly;
subprocess calls, printed output and the interactive prompt are modelled as an
explicit event trace, with the outside world (exit codes of the external tool,
the lines it prints, the operator's input lines) supplied as parameters.
Line breaks are modelled as the newline character, the separator used by the
external tool's output.
-/

namespace BranchVacuum

/-- isPyWs models the whitespace class used by Python str.strip with no
arguments, restricted to the ASCII whitespace characters. -/
def isPyWs (c : Char) : Bool :=
  c = ' ' || c = '\t' || c = '\n' || c = '\x0d' || c = '\x0b' || c = '\x0c'

/-- pyStrip models Python str.strip(): remove leading and trailing
whitespace. -/
def pyStrip (cs : List Char) : List Char :=
  ((cs.dropWhile isPyWs).reverse.dropWhile isPyWs).reverse

/-- splitlinesCore models Python str.splitlines on a non-empty input, with
the newline character as line break; acc holds the current line reversed. -/
def splitlinesCore : List Char → List Char → List (List Char)
  | [], acc => [acc.reverse]
  | c :: rest, acc =>
    if c = '\n' then
      acc.reverse :: (match rest with
        | [] => []
        | _ :: _ => splitlinesCore rest [])
    else
      splitlinesCore rest (c :: acc)

/-- pySplitlines models Python str.splitlines (empty input gives no lines). -/
def pySplitlines (cs : List Char) : List (List Char) :=
  match cs with
  | [] => []
  | _ :: _ => splitlinesCore cs []

/-- run_git_command_capture models run_git_command with capture=True applied
to a given raw stdout text: result.stdout.strip().splitlines(). -/
def run_git_command_capture (stdout : String) : List String :=
  (pySplitlines (pyStrip stdout.data)).map (fun l => String.mk l)

/-- get_local_branches models get_local_branches: the captured lines of the
local-branch listing, with no further processing. -/
def get_local_branches (stdout : String) : List String :=
  run_git_command_capture stdout

/-- originQualifier is the default remote qualifier with its separator. -/
def originQualifier : List Char := "origin/".data

/-- pyReplaceFirst models Python str.replace(pat, new, 1) with the empty
string as new: remove the first occurrence of pat, if any. -/
def pyReplaceFirst (pat : List Char) : List Char → List Char
  | [] => []
  | c :: rest =>
    if pat.isPrefixOf (c :: rest) then (c :: rest).drop pat.length
    else c :: pyReplaceFirst pat rest

/-- get_remote_branches models get_remote_branches applied to the captured
lines of the remote-tracking listing:
[b.strip().replace(quot, empty, 1) for b in branches if
b.strip().startswith(quot)] with quot the origin qualifier. -/
def get_remote_branches (lines : List String) : List String :=
  (lines.filter (fun b => originQualifier.isPrefixOf (pyStrip b.data))).map
    (fun b => String.mk (pyReplaceFirst originQualifier (pyStrip b.data)))

/-- only_local models the candidate computation of main, line 58:
[b for b in local_branches if b not in remote_branches and
b not in (main, master)]. -/
def only_local (localBranches remoteBranches : List String) : List String :=
  localBranches.filter
    (fun b => !remoteBranches.contains b && !(b == "main") && !(b == "master"))

/-- pyNormalize models choice.strip().lower() applied to one input line. -/
def pyNormalize (s : String) : String :=
  String.mk ((pyStrip s.data).map Char.toLower)

/-- invalidRepoMsg is the validation-failure message of main. -/
def invalidRepoMsg (repo : String) : String :=
  "❌ " ++ repo ++ " is not a valid git repository."

/-- fetchStartMsg is printed before the remote-prune fetch. -/
def fetchStartMsg : String := "🔄 Fetching latest remote info..."

/-- fetchDoneMsg is printed after the remote-prune fetch. -/
def fetchDoneMsg : String := "✅ Fetch complete."

/-- noBranchesMsg is printed when the candidate list is empty. -/
def noBranchesMsg : String := "🎉 No local-only branches found."

/-- promptText is the prompt written for one candidate attempt. -/
def promptText (branch : String) : String :=
  "Branch \x27" ++ branch ++ "\x27 exists only locally. Delete? [y/N]: "

/-- keepMsg is printed when a candidate is kept. -/
def keepMsg (branch : String) : String :=
  "➡️ Keeping branch: " ++ branch

/-- guideMsg is the fixed guidance line printed on unrecognized input. -/
def guideMsg : String := "Please answer with \x27y\x27 or \x27n\x27."

/-- deletedMsg is printed by delete_branch on success. -/
def deletedMsg (branch : String) : String :=
  "✅ Deleted branch: " ++ branch

/-- deleteFailMsg is printed by delete_branch on a non-zero exit. -/
def deleteFailMsg (branch : String) : String :=
  "❌ Could not delete branch \x27" ++ branch ++
    "\x27. Maybe it\x27s the current branch?"

/-- Event is one observable step of a run: an external tool invocation, a
prompt written to the operator, or a printed status line. -/
inductive Event where
  | revParseCall
  | fetchCall
  | listLocalCall
  | listRemoteCall
  | deleteCall (cmd : List String)
  | promptOut (s : String)
  | print (s : String)
deriving DecidableEq

/-- delete_cmd is the argument vector built by delete_branch, line 26. -/
def delete_cmd (repo branch : String) (force : Bool) : List String :=
  ["git", "-C", repo, "branch", if force then "-D" else "-d", branch]

/-- delete_branch models delete_branch: run the delete command, print the
success message on a zero exit, catch the failure and print the warning on a
non-zero exit; exitOk is the external outcome of the invocation. -/
def delete_branch (branch repo : String) (force : Bool) (exitOk : Bool) :
    List Event :=
  if exitOk then
    [Event.deleteCall (delete_cmd repo branch force),
     Event.print (deletedMsg branch)]
  else
    [Event.deleteCall (delete_cmd repo branch force),
     Event.print (deleteFailMsg branch)]

/-- prompt_loop models the while-True loop of main, lines 65 to 74, for one
candidate: consume input lines until a decisive answer; the result pairs the
emitted events with, when a decisive answer arrives before the inputs run
out, the remaining inputs and whether the deleter was invoked. -/
def prompt_loop (branch repo : String) (force : Bool) (exitOk : Bool) :
    List String → List Event × Option (List String × Bool)
  | [] => ([], none)
  | i :: rest =>
    if pyNormalize i = "y" then
      (Event.promptOut (promptText branch) ::
        delete_branch branch repo force exitOk, some (rest, true))
    else if pyNormalize i = "n" ∨ pyNormalize i = "" then
      ([Event.promptOut (promptText branch), Event.print (keepMsg branch)],
        some (rest, false))
    else
      ((Event.promptOut (promptText branch) :: Event.print guideMsg ::
          (prompt_loop branch repo force exitOk rest).1),
        (prompt_loop branch repo force exitOk rest).2)

/-- process_candidates models the for-loop of main, lines 64 to 74: resolve
each candidate in order; deleteOk gives the external outcome of the k-th
delete invocation; the Bool is false when the inputs ran out. -/
def process_candidates (repo : String) (force : Bool) (deleteOk : Nat → Bool) :
    List String → List String → Nat → List Event × Bool
  | [], _, _ => ([], true)
  | b :: bs, inputs, k =>
    match prompt_loop b repo force (deleteOk k) inputs with
    | (evs, none) => (evs, false)
    | (evs, some (rem, d)) =>
      (evs ++ (process_candidates repo force deleteOk bs rem
          (if d then k + 1 else k)).1,
        (process_candidates repo force deleteOk bs rem
          (if d then k + 1 else k)).2)

/-- Config holds the parsed command line: the repository path and the safe
flag. -/
structure Config where
  repo : String
  safe : Bool

/-- World holds the external behaviour a run observes: the exit outcomes of
the validation, fetch and delete invocations, the raw stdout of the two
listings, and the operator's input lines. -/
structure World where
  revParseOk : Bool
  fetchOk : Bool
  localStdout : String
  remoteStdout : String
  deleteOk : Nat → Bool
  inputs : List String

/-- MainResult is how a run of main ends: sys.exit with a code, an unhandled
subprocess error, a normal return, or blocking forever on input. -/
inductive MainResult where
  | exited (code : Nat) (events : List Event)
  | raised (events : List Event)
  | finished (events : List Event)
  | blocked (events : List Event)

/-- main models main, lines 33 to 74: validate, refresh, enumerate, report
empty or run the interactive loop. -/
def main (cfg : Config) (w : World) : MainResult :=
  if !w.revParseOk then
    MainResult.exited 1
      [Event.revParseCall, Event.print (invalidRepoMsg cfg.repo)]
  else if !w.fetchOk then
    MainResult.raised
      [Event.revParseCall, Event.print fetchStartMsg, Event.fetchCall]
  else
    if (only_local (get_local_branches w.localStdout)
        (get_remote_branches (run_git_command_capture w.remoteStdout))).isEmpty
    then
      MainResult.finished
        ([Event.revParseCall, Event.print fetchStartMsg, Event.fetchCall,
          Event.print fetchDoneMsg, Event.listLocalCall, Event.listRemoteCall]
          ++ [Event.print noBranchesMsg])
    else
      match process_candidates cfg.repo (!cfg.safe) w.deleteOk
          (only_local (get_local_branches w.localStdout)
            (get_remote_branches (run_git_command_capture w.remoteStdout)))
          w.inputs 0 with
      | (evs, true) =>
        MainResult.finished
          ([Event.revParseCall, Event.print fetchStartMsg, Event.fetchCall,
            Event.print fetchDoneMsg, Event.listLocalCall,
            Event.listRemoteCall] ++ evs)
      | (evs, false) =>
        MainResult.blocked
          ([Event.revParseCall, Event.print fetchStartMsg, Event.fetchCall,
            Event.print fetchDoneMsg, Event.listLocalCall,
            Event.listRemoteCall] ++ evs)

/-- eventsOf projects the event trace out of a run result. -/
def eventsOf : MainResult → List Event
  | MainResult.exited _ e => e
  | MainResult.raised e => e
  | MainResult.finished e => e
  | MainResult.blocked e => e

/-- deleteCount counts the deleter invocations in a trace. -/
def deleteCount : List Event → Nat
  | [] => 0
  | Event.deleteCall _ :: evs => deleteCount evs + 1
  | _ :: evs => deleteCount evs

/-- promptsOf projects the sequence of written prompt texts out of a
trace. -/
def promptsOf (evs : List Event) : List String :=
  evs.filterMap (fun e => match e with
    | Event.promptOut s => some s
    | _ => none)

/-- resultKind tags the four ways a run can end. -/
def resultKind : MainResult → Nat
  | MainResult.exited _ _ => 0
  | MainResult.raised _ => 1
  | MainResult.finished _ => 2
  | MainResult.blocked _ => 3

/-- exitCodeOf is the exit code of a sys.exit ending, 0 otherwise. -/
def exitCodeOf : MainResult → Nat
  | MainResult.exited c _ => c
  | _ => 0

/-- mainShape is the control-flow skeleton of a run: how it ended, the exit
code, and the sequence of prompts the operator saw. -/
def mainShape (r : MainResult) : Nat × Nat × List String :=
  (resultKind r, exitCodeOf r, promptsOf (eventsOf r))

/-- local_only_spec restates the Local-Only Candidate List the way the spec
describes it: the local entries that are absent from the remote list and are
neither of the protected names, in local order. -/
def local_only_spec (L R : List String) : List String :=
  L.filter (fun b => decide (b ∉ R ∧ b ≠ "main" ∧ b ≠ "master"))

/-- list_remote_claim restates the remote normalization the way the claim
describes it: keep entries whose trimmed form begins with the qualifier,
strip the qualifier, then trim surrounding whitespace again. -/
def list_remote_claim (lines : List String) : List String :=
  (lines.filter (fun b => originQualifier.isPrefixOf (pyStrip b.data))).map
    (fun b => String.mk (pyStrip ((pyStrip b.data).drop originQualifier.length)))

/-- list_remote_amended restates the remote normalization as the code has it:
keep entries whose trimmed form begins with the qualifier and drop the
qualifier from the trimmed form, with no further trimming. -/
def list_remote_amended (lines : List String) : List String :=
  (lines.filter (fun b => originQualifier.isPrefixOf (pyStrip b.data))).map
    (fun b => String.mk ((pyStrip b.data).drop originQualifier.length))

/-- firstDecisive is the first input whose trimmed lowercased form is a
decisive token: y, n or the empty string. -/
def firstDecisive : List String → Option String
  | [] => none
  | i :: rest =>
    if pyNormalize i = "y" ∨ pyNormalize i = "n" ∨ pyNormalize i = "" then
      some (pyNormalize i)
    else firstDecisive rest

/-- joinNl joins lines with the newline character. -/
def joinNl : List (List Char) → List Char
  | [] => []
  | [l] => l
  | l :: ls => l ++ '\n' :: joinNl ls

lemma only_local_pred (R : List String) (b : String) (hb1 : ¬ b ∈ R)
    (hb2 : b ≠ "main") (hb3 : b ≠ "master") :
    (!R.contains b && !(b == "main") && !(b == "master")) = true := by
  simp [hb1, hb2, hb3]

lemma count_only_local (L R : List String) (b : String) (hb1 : ¬ b ∈ R)
    (hb2 : b ≠ "main") (hb3 : b ≠ "master") :
    (only_local L R).count b = L.count b := by
  unfold only_local
  exact List.count_filter (only_local_pred R b hb1 hb2 hb3)

/-- C1: the Local-Only Candidate List is exactly the local branches that are
absent remotely and are not a protected name, in local-list order, and the
protected names main and master never occur in it. -/
theorem claim_c1 (L R : List String) :
    only_local L R = local_only_spec L R ∧
    List.Sublist (only_local L R) L ∧
    (only_local L R).count "main" = 0 ∧
    (only_local L R).count "master" = 0 := by
  refine ⟨?_, List.filter_sublist L, ?_, ?_⟩
  · unfold only_local local_only_spec
    apply List.filter_congr
    intro b _
    by_cases h1 : b ∈ R <;> by_cases h2 : b = "main" <;>
      by_cases h3 : b = "master" <;> simp [h1, h2, h3]
  · refine List.count_eq_zero.mpr ?_
    intro hmem
    rw [only_local, List.mem_filter] at hmem
    simp at hmem
  · refine List.count_eq_zero.mpr ?_
    intro hmem
    rw [only_local, List.mem_filter] at hmem
    simp at hmem

lemma pyReplaceFirst_eq_drop (pat cs : List Char) (h : pat.isPrefixOf cs = true) :
    pyReplaceFirst pat cs = cs.drop pat.length := by
  cases cs with
  | nil => simp [pyReplaceFirst]
  | cons c rest => simp [pyReplaceFirst, h]

/-- C3 counterexample: the code trims each entry before stripping the
qualifier and never trims again afterwards, so on the raw entry
origin/ x it returns the untrimmed remainder, not the trimmed one the
claim describes. -/
theorem claim_c3_cex :
    get_remote_branches ["origin/ x"] = [" x"] ∧
    list_remote_claim ["origin/ x"] = ["x"] ∧
    (get_remote_branches ["origin/ x"] == list_remote_claim ["origin/ x"]) = false := by
  decide

/-- C3 amended: get_remote_branches keeps exactly the entries whose trimmed
form begins with the qualifier origin/, strips that qualifier from the
trimmed form with no further trimming, drops every entry under any other
remote, and preserves order; on the raw input of the claim the result is
exactly main then feature/x. -/
theorem claim_c3 (lines : List String) :
    get_remote_branches lines = list_remote_amended lines ∧
    get_remote_branches
        ["origin/main", " origin/feature/x ", "upstream/dev", "random/branch"]
      = ["main", "feature/x"] := by
  constructor
  · unfold get_remote_branches list_remote_amended
    apply List.map_congr_left
    intro b hb
    rw [List.mem_filter] at hb
    rw [pyReplaceFirst_eq_drop _ _ hb.2]
  · decide

/-- C8 counterexample: a raw entry that trims to exactly origin/ yields the
empty branch name, and a raw entry whose remote branch is itself named with
an origin/ path keeps the qualifier after normalization. -/
theorem claim_c8_cex :
    get_remote_branches ["origin/"] = [""] ∧
    "" ∈ get_remote_branches ["origin/"] ∧
    get_remote_branches ["origin/origin/a"] = ["origin/a"] ∧
    originQualifier.isPrefixOf "origin/a".data = true := by
  decide

/-- C8 amended: every element of the normalized remote listing is exactly the
remainder of some trimmed raw entry after its leading origin/ qualifier; it
need not be non-empty and may itself begin with origin/ again when the raw
entry repeats the qualifier. -/
theorem claim_c8 (lines : List String) (b : String)
    (hb : b ∈ get_remote_branches lines) :
    ∃ a ∈ lines, pyStrip a.data = originQualifier ++ b.data := by
  unfold get_remote_branches at hb
  rw [List.mem_map] at hb
  obtain ⟨a, ha, rfl⟩ := hb
  rw [List.mem_filter] at ha
  refine ⟨a, ha.1, ?_⟩
  rw [pyReplaceFirst_eq_drop _ _ ha.2]
  rw [List.isPrefixOf_iff_prefix] at ha
  obtain ⟨t, ht⟩ := ha.2
  conv_lhs => rw [← ht]
  rw [← ht, List.drop_left]

/-- claim_c8_witness instantiates claim_c8 on the raw entry origin/main. -/
theorem claim_c8_witness :
    ∃ a ∈ ["origin/main"], pyStrip a.data = originQualifier ++ "main".data :=
  claim_c8 ["origin/main"] "main" (by decide)

lemma splitlinesCore_step (c : Char) (rest acc : List Char) :
    splitlinesCore (c :: rest) acc =
      if c = '\n' then
        acc.reverse :: (match rest with
          | [] => []
          | _ :: _ => splitlinesCore rest [])
      else splitlinesCore rest (c :: acc) := rfl

lemma splitlinesCore_nl_nil (acc : List Char) :
    splitlinesCore ['\n'] acc = [acc.reverse] := rfl

lemma splitlinesCore_nl_cons (r : Char) (rs acc : List Char) :
    splitlinesCore ('\n' :: r :: rs) acc
      = acc.reverse :: splitlinesCore (r :: rs) [] := rfl

lemma splitlinesCore_of_ne (c : Char) (rest acc : List Char) (hc : c ≠ '\n') :
    splitlinesCore (c :: rest) acc = splitlinesCore rest (c :: acc) := by
  rw [splitlinesCore_step, if_neg hc]

lemma splitlinesCore_ne_nil : ∀ (cs acc : List Char), splitlinesCore cs acc ≠ [] := by
  intro cs
  induction cs with
  | nil => intro acc; simp [splitlinesCore]
  | cons c rest ih =>
    intro acc
    by_cases hc : c = '\n'
    · subst hc
      cases rest with
      | nil => rw [splitlinesCore_nl_nil]; simp
      | cons r rs => rw [splitlinesCore_nl_cons]; simp
    · rw [splitlinesCore_of_ne c rest acc hc]
      exact ih (c :: acc)

lemma joinNl_cons (l : List Char) (ls : List (List Char)) (h : ls ≠ []) :
    joinNl (l :: ls) = l ++ '\n' :: joinNl ls := by
  cases ls with
  | nil => exact absurd rfl h
  | cons x xs => rfl

lemma joinNl_splitlinesCore :
    ∀ (cs acc : List Char), cs.getLast? ≠ some '\n' →
      joinNl (splitlinesCore cs acc) = acc.reverse ++ cs := by
  intro cs
  induction cs with
  | nil => intro acc _; simp [splitlinesCore, joinNl]
  | cons c rest ih =>
    intro acc h
    by_cases hc : c = '\n'
    · subst hc
      cases rest with
      | nil => simp at h
      | cons r rs =>
        rw [List.getLast?_cons_cons] at h
        have hne := splitlinesCore_ne_nil (r :: rs) []
        rw [splitlinesCore_nl_cons, joinNl_cons _ _ hne, ih [] h]
        simp
    · have hrest : rest.getLast? ≠ some '\n' := by
        cases rest with
        | nil => simp
        | cons r rs => rw [List.getLast?_cons_cons] at h; exact h
      rw [splitlinesCore_of_ne c rest acc hc, ih (c :: acc) hrest]
      simp

lemma splitlinesCore_no_nl :
    ∀ (cs acc : List Char), '\n' ∉ acc →
      ∀ l ∈ splitlinesCore cs acc, '\n' ∉ l := by
  intro cs
  induction cs with
  | nil =>
    intro acc hacc l hl
    simp only [splitlinesCore, List.mem_singleton] at hl
    subst hl
    simpa using hacc
  | cons c rest ih =>
    intro acc hacc l hl
    by_cases hc : c = '\n'
    · subst hc
      cases rest with
      | nil =>
        rw [splitlinesCore_nl_nil] at hl
        rw [List.mem_singleton] at hl
        subst hl
        simpa using hacc
      | cons r rs =>
        rw [splitlinesCore_nl_cons] at hl
        rcases List.mem_cons.mp hl with rfl | hl2
        · simpa using hacc
        · exact ih [] (by simp) l hl2
    · rw [splitlinesCore_of_ne c rest acc hc] at hl
      refine ih (c :: acc) ?_ l hl
      intro hmem
      rcases List.mem_cons.mp hmem with heq | hmem2
      · exact hc heq.symm
      · exact hacc hmem2

lemma head?_dropWhile (p : Char → Bool) :
    ∀ (l : List Char) (c : Char), (l.dropWhile p).head? = some c → p c = false := by
  intro l
  induction l with
  | nil => intro c h; simp [List.dropWhile] at h
  | cons a t ih =>
    intro c h
    by_cases ha : p a
    · rw [List.dropWhile_cons_of_pos ha] at h
      exact ih c h
    · rw [List.dropWhile_cons_of_neg ha] at h
      simp only [List.head?_cons, Option.some.injEq] at h
      subst h
      simpa using ha

lemma pyStrip_getLast_ne_nl (cs : List Char) :
    (pyStrip cs).getLast? ≠ some '\n' := by
  intro h
  rw [pyStrip, List.getLast?_reverse] at h
  have := head?_dropWhile isPyWs _ _ h
  simp [isPyWs] at this

lemma joinNl_pySplitlines (cs : List Char) (h : cs.getLast? ≠ some '\n') :
    joinNl (pySplitlines cs) = cs := by
  cases cs with
  | nil => rfl
  | cons c rest =>
    simp only [pySplitlines]
    rw [joinNl_splitlinesCore (c :: rest) [] h]
    rfl

/-- C7 counterexample: an interior blank line is kept by
stdout.strip().splitlines(), so the returned lines are not all non-empty,
and individual lines are not trimmed. -/
theorem claim_c7_cex :
    run_git_command_capture "a\n\nb" = ["a", "", "b"] ∧
    "" ∈ run_git_command_capture "a\n\nb" ∧
    run_git_command_capture "a \nb" = ["a ", "b"] ∧
    ("a " == String.mk (pyStrip "a ".data)) = false := by
  decide

/-- C7 amended: capturing mode returns the lines obtained by removing leading
and trailing whitespace from the whole output and splitting on line breaks;
joining the returned lines with line breaks recovers exactly the stripped
output and no returned line contains a line break, but interior lines may be
empty and lines are not individually trimmed. -/
theorem claim_c7 (raw : String) :
    joinNl ((run_git_command_capture raw).map String.data) = pyStrip raw.data ∧
    (run_git_command_capture raw).all (fun l => !(l.data.contains '\n')) = true := by
  have hmaps : (run_git_command_capture raw).map String.data
      = pySplitlines (pyStrip raw.data) := by
    unfold run_git_command_capture
    rw [List.map_map]
    exact List.map_id _
  constructor
  · rw [hmaps]
    exact joinNl_pySplitlines _ (pyStrip_getLast_ne_nl raw.data)
  · rw [List.all_eq_true]
    intro l hl
    have hld : l.data ∈ pySplitlines (pyStrip raw.data) := by
      rw [← hmaps]
      exact List.mem_map_of_mem String.data hl
    have hnl : '\n' ∉ l.data := by
      cases hcs : pyStrip raw.data with
      | nil =>
        rw [hcs] at hld
        simp [pySplitlines] at hld
      | cons c rest =>
        rw [hcs] at hld
        simp only [pySplitlines] at hld
        exact splitlinesCore_no_nl (c :: rest) [] (by simp) l.data hld
    simp [List.elem_eq_mem, hnl]

lemma prompt_loop_step (branch repo : String) (force exitOk : Bool)
    (i : String) (rest : List String) :
    prompt_loop branch repo force exitOk (i :: rest) =
      if pyNormalize i = "y" then
        (Event.promptOut (promptText branch) ::
          delete_branch branch repo force exitOk, some (rest, true))
      else if pyNormalize i = "n" ∨ pyNormalize i = "" then
        ([Event.promptOut (promptText branch), Event.print (keepMsg branch)],
          some (rest, false))
      else
        ((Event.promptOut (promptText branch) :: Event.print guideMsg ::
            (prompt_loop branch repo force exitOk rest).1),
          (prompt_loop branch repo force exitOk rest).2) := rfl

lemma prompt_loop_yes (branch repo : String) (force exitOk : Bool)
    (i : String) (rest : List String) (h : pyNormalize i = "y") :
    prompt_loop branch repo force exitOk (i :: rest) =
      (Event.promptOut (promptText branch) ::
        delete_branch branch repo force exitOk, some (rest, true)) := by
  rw [prompt_loop_step, if_pos h]

lemma prompt_loop_keep (branch repo : String) (force exitOk : Bool)
    (i : String) (rest : List String)
    (h : pyNormalize i = "n" ∨ pyNormalize i = "") :
    prompt_loop branch repo force exitOk (i :: rest) =
      ([Event.promptOut (promptText branch), Event.print (keepMsg branch)],
        some (rest, false)) := by
  have hy : ¬ pyNormalize i = "y" := by rcases h with h | h <;> simp [h]
  rw [prompt_loop_step, if_neg hy, if_pos h]

lemma prompt_loop_other (branch repo : String) (force exitOk : Bool)
    (i : String) (rest : List String) (h1 : ¬ pyNormalize i = "y")
    (h2 : ¬ pyNormalize i = "n") (h3 : ¬ pyNormalize i = "") :
    prompt_loop branch repo force exitOk (i :: rest) =
      ((Event.promptOut (promptText branch) :: Event.print guideMsg ::
          (prompt_loop branch repo force exitOk rest).1),
        (prompt_loop branch repo force exitOk rest).2) := by
  rw [prompt_loop_step, if_neg h1, if_neg (not_or.mpr ⟨h2, h3⟩)]

lemma firstDecisive_step (i : String) (rest : List String) :
    firstDecisive (i :: rest) =
      if pyNormalize i = "y" ∨ pyNormalize i = "n" ∨ pyNormalize i = "" then
        some (pyNormalize i)
      else firstDecisive rest := rfl

lemma firstDecisive_decisive (i : String) (rest : List String)
    (h : pyNormalize i = "y" ∨ pyNormalize i = "n" ∨ pyNormalize i = "") :
    firstDecisive (i :: rest) = some (pyNormalize i) := by
  rw [firstDecisive_step, if_pos h]

lemma firstDecisive_other (i : String) (rest : List String)
    (h1 : ¬ pyNormalize i = "y") (h2 : ¬ pyNormalize i = "n")
    (h3 : ¬ pyNormalize i = "") :
    firstDecisive (i :: rest) = firstDecisive rest := by
  rw [firstDecisive_step, if_neg (by simp [h1, h2, h3])]

lemma deleteCount_delete_branch (branch repo : String) (force exitOk : Bool) :
    deleteCount (delete_branch branch repo force exitOk) = 1 := by
  cases exitOk <;> rfl

lemma deleteCount_prompt_loop (branch repo : String) (force exitOk : Bool) :
    ∀ inputs : List String,
      deleteCount (prompt_loop branch repo force exitOk inputs).1
        = if firstDecisive inputs = some "y" then 1 else 0 := by
  intro inputs
  induction inputs with
  | nil => rfl
  | cons i rest ih =>
    by_cases h1 : pyNormalize i = "y"
    · rw [prompt_loop_yes branch repo force exitOk i rest h1,
        firstDecisive_decisive i rest (Or.inl h1), h1]
      simp [deleteCount, deleteCount_delete_branch]
    · by_cases h2 : pyNormalize i = "n" ∨ pyNormalize i = ""
      · rw [prompt_loop_keep branch repo force exitOk i rest h2,
          firstDecisive_decisive i rest (Or.inr h2),
          if_neg (by simp [h1])]
        rfl
      · rw [not_or] at h2
        rw [prompt_loop_other branch repo force exitOk i rest h1 h2.1 h2.2,
          firstDecisive_other i rest h1 h2.1 h2.2]
        exact ih

lemma keep_mem_prompt_loop (branch repo : String) (force exitOk : Bool) :
    ∀ inputs : List String,
      (firstDecisive inputs = some "n" ∨ firstDecisive inputs = some "") →
      Event.print (keepMsg branch) ∈ (prompt_loop branch repo force exitOk inputs).1 := by
  intro inputs
  induction inputs with
  | nil => intro h; rcases h with h | h <;> simp [firstDecisive] at h
  | cons i rest ih =>
    intro h
    by_cases h1 : pyNormalize i = "y"
    · rw [firstDecisive_decisive i rest (Or.inl h1), h1] at h
      rcases h with h | h <;> simp at h
    · by_cases h2 : pyNormalize i = "n" ∨ pyNormalize i = ""
      · rw [prompt_loop_keep branch repo force exitOk i rest h2]
        simp
      · rw [not_or] at h2
        rw [firstDecisive_other i rest h1 h2.1 h2.2] at h
        rw [prompt_loop_other branch repo force exitOk i rest h1 h2.1 h2.2]
        exact List.mem_cons_of_mem _ (List.mem_cons_of_mem _ (ih h))

/-- C2: for one candidate and any finite input sequence, the deleter is
invoked exactly once precisely when the first decisive input (trimmed and
lowercased y, n or empty) is y; a first decisive input of n or empty keeps
the branch, prints the keeping message and never invokes the deleter; an
unrecognized input prints the guidance line and repeats the loop on the
remaining inputs for the same candidate without advancing. -/
theorem claim_c2 (branch repo : String) (force exitOk : Bool)
    (inputs : List String) :
    (deleteCount (prompt_loop branch repo force exitOk inputs).1
        = if firstDecisive inputs = some "y" then 1 else 0) ∧
    ((firstDecisive inputs = some "n" ∨ firstDecisive inputs = some "") →
      deleteCount (prompt_loop branch repo force exitOk inputs).1 = 0 ∧
      Event.print (keepMsg branch) ∈ (prompt_loop branch repo force exitOk inputs).1) ∧
    (∀ (i : String) (rest : List String), ¬ pyNormalize i = "y" →
      ¬ pyNormalize i = "n" → ¬ pyNormalize i = "" →
      prompt_loop branch repo force exitOk (i :: rest) =
        ((Event.promptOut (promptText branch) :: Event.print guideMsg ::
            (prompt_loop branch repo force exitOk rest).1),
          (prompt_loop branch repo force exitOk rest).2)) := by
  refine ⟨deleteCount_prompt_loop branch repo force exitOk inputs, ?_, ?_⟩
  · intro h
    refine ⟨?_, keep_mem_prompt_loop branch repo force exitOk inputs h⟩
    rw [deleteCount_prompt_loop branch repo force exitOk inputs]
    rcases h with h | h <;> rw [h] <;> simp
  · intro i rest h1 h2 h3
    exact prompt_loop_other branch repo force exitOk i rest h1 h2 h3

/-- claim_c2_witness instantiates claim_c2: an unrecognized first input
followed by y deletes exactly once, n keeps without deleting, and the
unrecognized input maybe reprompts on the remaining inputs. -/
theorem claim_c2_witness :
    deleteCount (prompt_loop "f1" "repo" true true ["maybe", "y"]).1 = 1 ∧
    (deleteCount (prompt_loop "f1" "repo" true true ["n"]).1 = 0 ∧
      Event.print (keepMsg "f1") ∈ (prompt_loop "f1" "repo" true true ["n"]).1) ∧
    prompt_loop "f1" "repo" true true ["maybe", "y"] =
      ((Event.promptOut (promptText "f1") :: Event.print guideMsg ::
          (prompt_loop "f1" "repo" true true ["y"]).1),
        (prompt_loop "f1" "repo" true true ["y"]).2) := by
  refine ⟨?_, ?_, ?_⟩
  · exact (claim_c2 "f1" "repo" true true ["maybe", "y"]).1.trans (by decide)
  · refine ((claim_c2 "f1" "repo" true true ["n"]).2.1 ?_)
    exact Or.inl (by decide)
  · exact (claim_c2 "f1" "repo" true true []).2.2 "maybe" ["y"]
      (by decide) (by decide) (by decide)

lemma prompt_loop_yes_fst (branch repo : String) (force exitOk : Bool)
    (i : String) (rest : List String) (h : pyNormalize i = "y") :
    (prompt_loop branch repo force exitOk (i :: rest)).1 =
      Event.promptOut (promptText branch) ::
        delete_branch branch repo force exitOk := by
  rw [prompt_loop_yes branch repo force exitOk i rest h]

lemma prompt_loop_keep_fst (branch repo : String) (force exitOk : Bool)
    (i : String) (rest : List String)
    (h : pyNormalize i = "n" ∨ pyNormalize i = "") :
    (prompt_loop branch repo force exitOk (i :: rest)).1 =
      [Event.promptOut (promptText branch), Event.print (keepMsg branch)] := by
  rw [prompt_loop_keep branch repo force exitOk i rest h]

lemma prompt_loop_other_fst (branch repo : String) (force exitOk : Bool)
    (i : String) (rest : List String) (h1 : ¬ pyNormalize i = "y")
    (h2 : ¬ pyNormalize i = "n") (h3 : ¬ pyNormalize i = "") :
    (prompt_loop branch repo force exitOk (i :: rest)).1 =
      Event.promptOut (promptText branch) :: Event.print guideMsg ::
        (prompt_loop branch repo force exitOk rest).1 := by
  rw [prompt_loop_other branch repo force exitOk i rest h1 h2 h3]

lemma prompt_loop_other_snd (branch repo : String) (force exitOk : Bool)
    (i : String) (rest : List String) (h1 : ¬ pyNormalize i = "y")
    (h2 : ¬ pyNormalize i = "n") (h3 : ¬ pyNormalize i = "") :
    (prompt_loop branch repo force exitOk (i :: rest)).2 =
      (prompt_loop branch repo force exitOk rest).2 := by
  rw [prompt_loop_other branch repo force exitOk i rest h1 h2 h3]

lemma process_candidates_step (repo : String) (f : Bool) (ok : Nat → Bool)
    (b : String) (bs inputs : List String) (k : Nat) :
    process_candidates repo f ok (b :: bs) inputs k =
      match prompt_loop b repo f (ok k) inputs with
      | (evs, none) => (evs, false)
      | (evs, some (rem, d)) =>
        (evs ++ (process_candidates repo f ok bs rem (if d then k + 1 else k)).1,
          (process_candidates repo f ok bs rem (if d then k + 1 else k)).2) := rfl

lemma process_candidates_cons_none (repo : String) (f : Bool) (ok : Nat → Bool)
    (b : String) (bs inputs : List String) (k : Nat)
    (h : (prompt_loop b repo f (ok k) inputs).2 = none) :
    process_candidates repo f ok (b :: bs) inputs k
      = ((prompt_loop b repo f (ok k) inputs).1, false) := by
  have hp : prompt_loop b repo f (ok k) inputs
      = ((prompt_loop b repo f (ok k) inputs).1, none) := by
    rw [← h]
  rw [process_candidates_step, hp]

lemma process_candidates_cons_some (repo : String) (f : Bool) (ok : Nat → Bool)
    (b : String) (bs inputs : List String) (k : Nat) (rem : List String)
    (d : Bool) (h : (prompt_loop b repo f (ok k) inputs).2 = some (rem, d)) :
    process_candidates repo f ok (b :: bs) inputs k
      = ((prompt_loop b repo f (ok k) inputs).1 ++
          (process_candidates repo f ok bs rem (if d then k + 1 else k)).1,
        (process_candidates repo f ok bs rem (if d then k + 1 else k)).2) := by
  have hp : prompt_loop b repo f (ok k) inputs
      = ((prompt_loop b repo f (ok k) inputs).1, some (rem, d)) := by
    rw [← h]
  rw [process_candidates_step, hp]

lemma deleteCall_delete_branch (branch repo : String) (force exitOk : Bool)
    (cmd : List String) (h : Event.deleteCall cmd ∈ delete_branch branch repo force exitOk) :
    cmd = delete_cmd repo branch force := by
  cases exitOk <;> simp [delete_branch] at h <;> exact h

lemma deleteCall_prompt_loop (branch repo : String) (force exitOk : Bool) :
    ∀ (inputs : List String) (cmd : List String),
      Event.deleteCall cmd ∈ (prompt_loop branch repo force exitOk inputs).1 →
      cmd = delete_cmd repo branch force := by
  intro inputs
  induction inputs with
  | nil => intro cmd h; simp [prompt_loop] at h
  | cons i rest ih =>
    intro cmd h
    by_cases h1 : pyNormalize i = "y"
    · rw [prompt_loop_yes_fst branch repo force exitOk i rest h1] at h
      rcases List.mem_cons.mp h with heq | h2
      · simp at heq
      · exact deleteCall_delete_branch branch repo force exitOk cmd h2
    · by_cases h2 : pyNormalize i = "n" ∨ pyNormalize i = ""
      · rw [prompt_loop_keep_fst branch repo force exitOk i rest h2] at h
        simp at h
      · rw [not_or] at h2
        rw [prompt_loop_other_fst branch repo force exitOk i rest h1 h2.1 h2.2] at h
        rcases List.mem_cons.mp h with heq | h3
        · simp at heq
        · rcases List.mem_cons.mp h3 with heq2 | h4
          · simp at heq2
          · exact ih cmd h4

lemma deleteCall_process (repo : String) (f : Bool) (ok : Nat → Bool) :
    ∀ (cands : List String) (inputs : List String) (k : Nat) (cmd : List String),
      Event.deleteCall cmd ∈ (process_candidates repo f ok cands inputs k).1 →
      ∃ b, cmd = delete_cmd repo b f := by
  intro cands
  induction cands with
  | nil => intro inputs k cmd h; simp [process_candidates] at h
  | cons c cs ih =>
    intro inputs k cmd h
    cases hpl : (prompt_loop c repo f (ok k) inputs).2 with
    | none =>
      rw [process_candidates_cons_none repo f ok c cs inputs k hpl] at h
      exact ⟨c, deleteCall_prompt_loop c repo f (ok k) inputs cmd h⟩
    | some p =>
      rw [process_candidates_cons_some repo f ok c cs inputs k p.1 p.2
        (by rw [hpl])] at h
      rcases List.mem_append.mp h with h2 | h2
      · exact ⟨c, deleteCall_prompt_loop c repo f (ok k) inputs cmd h2⟩
      · exact ih p.1 (if p.2 then k + 1 else k) cmd h2

/-- C4: every deleter invocation of a run uses the delete sub-command fixed
by the startup flag, forced -D without the safe flag and safe -d with it,
for every candidate uniformly; and a candidate confirmed with an input
normalizing to y does invoke the deleter with that sub-command. -/
theorem claim_c4 (cfg : Config) (w : World) :
    (∀ cmd, Event.deleteCall cmd ∈ eventsOf (main cfg w) →
      ∃ b, cmd = delete_cmd cfg.repo b (!cfg.safe) ∧
        cmd[4]? = some (if cfg.safe then "-d" else "-D")) ∧
    (∀ (b : String) (ok : Bool) (i : String) (rest : List String),
      pyNormalize i = "y" →
      Event.deleteCall (delete_cmd cfg.repo b (!cfg.safe)) ∈
        (prompt_loop b cfg.repo (!cfg.safe) ok (i :: rest)).1) := by
  have hflag : ∀ b : String, (delete_cmd cfg.repo b (!cfg.safe))[4]?
      = some (if cfg.safe then "-d" else "-D") := by
    intro b
    cases hs : cfg.safe <;> rfl
  constructor
  · intro cmd h
    unfold main at h
    split at h
    · simp [eventsOf] at h
    · split at h
      · simp [eventsOf] at h
      · split at h
        · simp [eventsOf] at h
        · split at h
          · rename_i evs heq
            simp only [eventsOf, List.mem_append] at h
            rcases h with h | h
            · simp at h
            · have hevs : evs = (process_candidates cfg.repo (!cfg.safe) w.deleteOk
                  (only_local (get_local_branches w.localStdout)
                    (get_remote_branches (run_git_command_capture w.remoteStdout)))
                  w.inputs 0).1 := by rw [heq]
              rw [hevs] at h
              obtain ⟨b, rfl⟩ := deleteCall_process cfg.repo (!cfg.safe) w.deleteOk
                _ w.inputs 0 cmd h
              exact ⟨b, rfl, hflag b⟩
          · rename_i evs heq
            simp only [eventsOf, List.mem_append] at h
            rcases h with h | h
            · simp at h
            · have hevs : evs = (process_candidates cfg.repo (!cfg.safe) w.deleteOk
                  (only_local (get_local_branches w.localStdout)
                    (get_remote_branches (run_git_command_capture w.remoteStdout)))
                  w.inputs 0).1 := by rw [heq]
              rw [hevs] at h
              obtain ⟨b, rfl⟩ := deleteCall_process cfg.repo (!cfg.safe) w.deleteOk
                _ w.inputs 0 cmd h
              exact ⟨b, rfl, hflag b⟩
  · intro b ok i rest hy
    rw [prompt_loop_yes_fst b cfg.repo (!cfg.safe) ok i rest hy]
    refine List.mem_cons_of_mem _ ?_
    cases ok <;> exact List.mem_cons_self _ _

/-- claim_c4_witness instantiates claim_c4 on a run without the safe flag in
which the single candidate x is confirmed with y. -/
theorem claim_c4_witness :
    (∃ b, ["git", "-C", "r", "branch", "-D", "x"] = delete_cmd "r" b (!false) ∧
      (["git", "-C", "r", "branch", "-D", "x"] : List String)[4]?
        = some (if false then "-d" else "-D")) ∧
    Event.deleteCall (delete_cmd "r" "x" (!false)) ∈
      (prompt_loop "x" "r" (!false) true ("y" :: [])).1 := by
  constructor
  · exact (claim_c4 ⟨"r", false⟩ ⟨true, true, "x", "", fun _ => true, ["y"]⟩).1
      ["git", "-C", "r", "branch", "-D", "x"] (by decide)
  · exact (claim_c4 ⟨"r", false⟩ ⟨true, true, "x", "", fun _ => true, ["y"]⟩).2
      "x" true "y" [] (by decide)

/-- C5: when the working-tree validation fails, the run ends by sys.exit
with status 1 after printing a message containing the repository path, and
the trace holds no fetch, listing, prompting or deletion: the only events
are the validation call and printed text. -/
theorem claim_c5 (cfg : Config) (w : World) (h : w.revParseOk = false) :
    main cfg w = MainResult.exited 1
        [Event.revParseCall, Event.print (invalidRepoMsg cfg.repo)] ∧
    (∃ pre post, invalidRepoMsg cfg.repo = pre ++ cfg.repo ++ post) ∧
    (∀ e ∈ eventsOf (main cfg w),
      e = Event.revParseCall ∨ ∃ s, e = Event.print s) := by
  have hm : main cfg w = MainResult.exited 1
      [Event.revParseCall, Event.print (invalidRepoMsg cfg.repo)] := by
    unfold main
    rw [h]
    rfl
  refine ⟨hm, ⟨"❌ ", " is not a valid git repository.", rfl⟩, ?_⟩
  rw [hm]
  intro e he
  simp only [eventsOf] at he
  rcases List.mem_cons.mp he with rfl | he2
  · exact Or.inl rfl
  · rcases List.mem_cons.mp he2 with rfl | he3
    · exact Or.inr ⟨invalidRepoMsg cfg.repo, rfl⟩
    · simp at he3

/-- claim_c5_witness instantiates claim_c5 on an invalid repository path. -/
theorem claim_c5_witness :
    main ⟨"badrepo", false⟩ ⟨false, true, "", "", fun _ => true, []⟩
        = MainResult.exited 1
            [Event.revParseCall, Event.print (invalidRepoMsg "badrepo")] ∧
    (∃ pre post, invalidRepoMsg "badrepo" = pre ++ "badrepo" ++ post) := by
  have h := claim_c5 ⟨"badrepo", false⟩ ⟨false, true, "", "", fun _ => true, []⟩ rfl
  exact ⟨h.1, h.2.1⟩

/-- C9: when the validation succeeds and the remote-prune fetch fails, the
run ends as an unhandled error right after the fetch invocation: the trace
holds only the validation call, the fetch start message and the fetch call,
so no listing, no candidate computation and no prompting happened and no
recovery was attempted. -/
theorem claim_c9 (cfg : Config) (w : World) (h1 : w.revParseOk = true)
    (h2 : w.fetchOk = false) :
    main cfg w = MainResult.raised
        [Event.revParseCall, Event.print fetchStartMsg, Event.fetchCall] ∧
    (∀ e ∈ eventsOf (main cfg w),
      e = Event.revParseCall ∨ e = Event.print fetchStartMsg ∨
        e = Event.fetchCall) := by
  have hm : main cfg w = MainResult.raised
      [Event.revParseCall, Event.print fetchStartMsg, Event.fetchCall] := by
    unfold main
    rw [h1, h2]
    rfl
  refine ⟨hm, ?_⟩
  rw [hm]
  intro e he
  simp only [eventsOf] at he
  rcases List.mem_cons.mp he with rfl | he2
  · exact Or.inl rfl
  · rcases List.mem_cons.mp he2 with rfl | he3
    · exact Or.inr (Or.inl rfl)
    · rcases List.mem_cons.mp he3 with rfl | he4
      · exact Or.inr (Or.inr rfl)
      · simp at he4

/-- claim_c9_witness instantiates claim_c9 on a run whose fetch fails. -/
theorem claim_c9_witness :
    main ⟨"r", false⟩ ⟨true, false, "", "", fun _ => true, []⟩
      = MainResult.raised
          [Event.revParseCall, Event.print fetchStartMsg, Event.fetchCall] :=
  (claim_c9 ⟨"r", false⟩ ⟨true, false, "", "", fun _ => true, []⟩ rfl rfl).1

lemma pair_eta {α β : Type} (p : α × β) : p = (p.1, p.2) := rfl

lemma promptsOf_delete_branch (branch repo : String) (force exitOk : Bool) :
    promptsOf (delete_branch branch repo force exitOk) = [] := by
  cases exitOk <;> rfl

lemma promptsOf_append (a b : List Event) :
    promptsOf (a ++ b) = promptsOf a ++ promptsOf b :=
  List.filterMap_append a b _

lemma prompt_loop_yes_snd (branch repo : String) (force exitOk : Bool)
    (i : String) (rest : List String) (h : pyNormalize i = "y") :
    (prompt_loop branch repo force exitOk (i :: rest)).2 = some (rest, true) := by
  rw [prompt_loop_yes branch repo force exitOk i rest h]

lemma prompt_loop_keep_snd (branch repo : String) (force exitOk : Bool)
    (i : String) (rest : List String)
    (h : pyNormalize i = "n" ∨ pyNormalize i = "") :
    (prompt_loop branch repo force exitOk (i :: rest)).2 = some (rest, false) := by
  rw [prompt_loop_keep branch repo force exitOk i rest h]

lemma prompt_loop_oracle (branch repo : String) (force : Bool) (ok1 ok2 : Bool) :
    ∀ inputs : List String,
      promptsOf (prompt_loop branch repo force ok1 inputs).1
          = promptsOf (prompt_loop branch repo force ok2 inputs).1 ∧
      (prompt_loop branch repo force ok1 inputs).2
          = (prompt_loop branch repo force ok2 inputs).2 := by
  intro inputs
  induction inputs with
  | nil => exact ⟨rfl, rfl⟩
  | cons i rest ih =>
    by_cases h1 : pyNormalize i = "y"
    · constructor
      · rw [prompt_loop_yes_fst branch repo force ok1 i rest h1,
          prompt_loop_yes_fst branch repo force ok2 i rest h1]
        show promptText branch :: promptsOf (delete_branch branch repo force ok1)
          = promptText branch :: promptsOf (delete_branch branch repo force ok2)
        rw [promptsOf_delete_branch, promptsOf_delete_branch]
      · rw [prompt_loop_yes_snd branch repo force ok1 i rest h1,
          prompt_loop_yes_snd branch repo force ok2 i rest h1]
    · by_cases h2 : pyNormalize i = "n" ∨ pyNormalize i = ""
      · constructor
        · rw [prompt_loop_keep_fst branch repo force ok1 i rest h2,
            prompt_loop_keep_fst branch repo force ok2 i rest h2]
        · rw [prompt_loop_keep_snd branch repo force ok1 i rest h2,
            prompt_loop_keep_snd branch repo force ok2 i rest h2]
      · rw [not_or] at h2
        constructor
        · rw [prompt_loop_other_fst branch repo force ok1 i rest h1 h2.1 h2.2,
            prompt_loop_other_fst branch repo force ok2 i rest h1 h2.1 h2.2]
          show promptText branch :: promptsOf (prompt_loop branch repo force ok1 rest).1
            = promptText branch :: promptsOf (prompt_loop branch repo force ok2 rest).1
          rw [ih.1]
        · rw [prompt_loop_other_snd branch repo force ok1 i rest h1 h2.1 h2.2,
            prompt_loop_other_snd branch repo force ok2 i rest h1 h2.1 h2.2]
          exact ih.2

lemma process_oracle (repo : String) (f : Bool) (o1 o2 : Nat → Bool) :
    ∀ (cands inputs : List String) (k1 k2 : Nat),
      promptsOf (process_candidates repo f o1 cands inputs k1).1
          = promptsOf (process_candidates repo f o2 cands inputs k2).1 ∧
      (process_candidates repo f o1 cands inputs k1).2
          = (process_candidates repo f o2 cands inputs k2).2 := by
  intro cands
  induction cands with
  | nil => intro inputs k1 k2; exact ⟨rfl, rfl⟩
  | cons c cs ih =>
    intro inputs k1 k2
    obtain ⟨hp, hs⟩ := prompt_loop_oracle c repo f (o1 k1) (o2 k2) inputs
    cases hpl1 : (prompt_loop c repo f (o1 k1) inputs).2 with
    | none =>
      have hpl2 : (prompt_loop c repo f (o2 k2) inputs).2 = none := by
        rw [← hs]; exact hpl1
      rw [process_candidates_cons_none repo f o1 c cs inputs k1 hpl1,
        process_candidates_cons_none repo f o2 c cs inputs k2 hpl2]
      exact ⟨hp, rfl⟩
    | some p =>
      have hpl2 : (prompt_loop c repo f (o2 k2) inputs).2 = some p := by
        rw [← hs]; exact hpl1
      rw [process_candidates_cons_some repo f o1 c cs inputs k1 p.1 p.2
          (by rw [hpl1]),
        process_candidates_cons_some repo f o2 c cs inputs k2 p.1 p.2
          (by rw [hpl2])]
      obtain ⟨ihp, ihs⟩ := ih p.1 (if p.2 then k1 + 1 else k1)
        (if p.2 then k2 + 1 else k2)
      constructor
      · show promptsOf ((prompt_loop c repo f (o1 k1) inputs).1 ++ _)
          = promptsOf ((prompt_loop c repo f (o2 k2) inputs).1 ++ _)
        rw [promptsOf_append, promptsOf_append, hp, ihp]
      · exact ihs

lemma mainShape_oracle (cfg : Config) (rv fok : Bool) (ls rs : String)
    (o1 o2 : Nat → Bool) (inputs : List String) :
    mainShape (main cfg ⟨rv, fok, ls, rs, o1, inputs⟩)
      = mainShape (main cfg ⟨rv, fok, ls, rs, o2, inputs⟩) := by
  cases rv with
  | false => rfl
  | true =>
    cases fok with
    | false => rfl
    | true =>
      by_cases hemp : (only_local (get_local_branches ls)
          (get_remote_branches (run_git_command_capture rs))).isEmpty = true
      · unfold main
        rw [hemp]
        rfl
      · rw [Bool.not_eq_true] at hemp
        obtain ⟨hp, hs⟩ := process_oracle cfg.repo (!cfg.safe) o1 o2
          (only_local (get_local_branches ls)
            (get_remote_branches (run_git_command_capture rs))) inputs 0 0
        unfold main
        rw [hemp]
        rw [pair_eta (process_candidates cfg.repo (!cfg.safe) o1
          (only_local (get_local_branches ls)
            (get_remote_branches (run_git_command_capture rs))) inputs 0)]
        rw [pair_eta (process_candidates cfg.repo (!cfg.safe) o2
          (only_local (get_local_branches ls)
            (get_remote_branches (run_git_command_capture rs))) inputs 0)]
        rw [← hs]
        cases hb : (process_candidates cfg.repo (!cfg.safe) o1
            (only_local (get_local_branches ls)
              (get_remote_branches (run_git_command_capture rs))) inputs 0).2 with
        | false =>
          show mainShape (MainResult.blocked _) = mainShape (MainResult.blocked _)
          simp only [mainShape, resultKind, exitCodeOf, eventsOf, promptsOf_append, hp]
        | true =>
          show mainShape (MainResult.finished _) = mainShape (MainResult.finished _)
          simp only [mainShape, resultKind, exitCodeOf, eventsOf, promptsOf_append, hp]

/-- C6: on a non-zero exit of the delete command, delete_branch returns
normally with a printed warning containing the branch name instead of
propagating the error, and the outcomes of the delete invocations change
nothing of a run's control flow: how it ends, its exit code and the whole
sequence of prompts (hence which candidates the loop goes on to visit) are
the same whatever the delete outcomes are. -/
theorem claim_c6 (branch repo : String) (force : Bool) :
    delete_branch branch repo force false
        = [Event.deleteCall (delete_cmd repo branch force),
           Event.print (deleteFailMsg branch)] ∧
    (∃ pre post, deleteFailMsg branch = pre ++ branch ++ post) ∧
    (∀ (cfg : Config) (rv fok : Bool) (ls rs : String) (o1 o2 : Nat → Bool)
        (inputs : List String),
      mainShape (main cfg ⟨rv, fok, ls, rs, o1, inputs⟩)
        = mainShape (main cfg ⟨rv, fok, ls, rs, o2, inputs⟩)) := by
  refine ⟨rfl, ?_, ?_⟩
  · exact ⟨"❌ Could not delete branch \x27",
      "\x27. Maybe it\x27s the current branch?", rfl⟩
  · intro cfg rv fok ls rs o1 o2 inputs
    exact mainShape_oracle cfg rv fok ls rs o1 o2 inputs

lemma prompt_mem_prompt_loop (branch repo : String) (force exitOk : Bool) :
    ∀ (inputs rem : List String) (d : Bool),
      (prompt_loop branch repo force exitOk inputs).2 = some (rem, d) →
      Event.promptOut (promptText branch) ∈
        (prompt_loop branch repo force exitOk inputs).1 := by
  intro inputs
  induction inputs with
  | nil => intro rem d h; exact Option.noConfusion h
  | cons i rest ih =>
    intro rem d h
    by_cases h1 : pyNormalize i = "y"
    · rw [prompt_loop_yes_fst branch repo force exitOk i rest h1]
      exact List.mem_cons_self _ _
    · by_cases h2 : pyNormalize i = "n" ∨ pyNormalize i = ""
      · rw [prompt_loop_keep_fst branch repo force exitOk i rest h2]
        exact List.mem_cons_self _ _
      · rw [not_or] at h2
        rw [prompt_loop_other_snd branch repo force exitOk i rest h1 h2.1 h2.2] at h
        rw [prompt_loop_other_fst branch repo force exitOk i rest h1 h2.1 h2.2]
        exact List.mem_cons_of_mem _ (List.mem_cons_of_mem _ (ih rem d h))

lemma process_prompt_count (repo : String) (force : Bool) (ok : Nat → Bool)
    (b : String) :
    ∀ (cands inputs : List String) (k : Nat),
      (process_candidates repo force ok cands inputs k).2 = true →
      cands.count b ≤
        List.count (Event.promptOut (promptText b))
          (process_candidates repo force ok cands inputs k).1 := by
  intro cands
  induction cands with
  | nil => intro inputs k _; exact Nat.zero_le _
  | cons c cs ih =>
    intro inputs k h
    cases hpl : (prompt_loop c repo force (ok k) inputs).2 with
    | none =>
      rw [process_candidates_cons_none repo force ok c cs inputs k hpl] at h
      exact Bool.noConfusion h
    | some p =>
      rw [process_candidates_cons_some repo force ok c cs inputs k p.1 p.2
        (by rw [hpl])] at h ⊢
      have hih := ih p.1 (if p.2 then k + 1 else k) h
      have hhead : (if c == b then 1 else 0) ≤
          List.count (Event.promptOut (promptText b))
            (prompt_loop c repo force (ok k) inputs).1 := by
        by_cases hbc : c = b
        · rw [if_pos (by simp [hbc]), ← hbc]
          exact List.count_pos_iff.mpr
            (prompt_mem_prompt_loop c repo force (ok k) inputs p.1 p.2
              (by rw [hpl]))
        · rw [if_neg (by simp [hbc])]
          exact Nat.zero_le _
      show (c :: cs).count b ≤ List.count _ (_ ++ _)
      rw [List.count_cons, List.count_append]
      omega

/-- C10: the candidate computation preserves multiplicity: a branch that is
absent remotely and unprotected occurs in the candidate list exactly as many
times as in the local listing, and in a completed run the operator sees at
least one prompt for that branch per occurrence, with no deduplication. -/
theorem claim_c10 (L R : List String) (b : String) (h1 : ¬ b ∈ R)
    (h2 : b ≠ "main") (h3 : b ≠ "master") :
    (only_local L R).count b = L.count b ∧
    (∀ (repo : String) (force : Bool) (ok : Nat → Bool)
        (inputs : List String) (k : Nat),
      (process_candidates repo force ok (only_local L R) inputs k).2 = true →
      (only_local L R).count b ≤
        List.count (Event.promptOut (promptText b))
          (process_candidates repo force ok (only_local L R) inputs k).1) :=
  ⟨count_only_local L R b h1 h2 h3, fun repo force ok inputs k h =>
    process_prompt_count repo force ok b (only_local L R) inputs k h⟩

/-- claim_c10_witness instantiates claim_c10 on a local listing holding the
branch x twice, with a run that keeps both occurrences. -/
theorem claim_c10_witness :
    (only_local ["x", "x"] []).count "x" = (["x", "x"] : List String).count "x" ∧
    (only_local ["x", "x"] []).count "x" ≤
      List.count (Event.promptOut (promptText "x"))
        (process_candidates "r" true (fun _ => true) (only_local ["x", "x"] [])
          ["n", "n"] 0).1 := by
  have h := claim_c10 ["x", "x"] [] "x" (by decide) (by decide) (by decide)
  exact ⟨h.1, h.2 "r" true (fun _ => true) ["n", "n"] 0 (by decide)⟩

end BranchVacuum
